import Mathlib

set_option maxRecDepth 8000

/-!
Shallow embedding of the brainviz correlation/visualization pipeline.

The frontend graph-frame codec (`frontend/src/overview/overviewCodec.ts`) and
the display filter helpers (`frontend/src/vis/drawFrame.ts`) are translated
directly from the TypeScript sources.  The backend pipeline stages
(windowed correlation, wavelet leadership ratios, temporal interpolation and
smoothing) have no implementation in the repository snapshot, so they are
modelled from the specification; each such definition carries a doc comment
saying so.  Numbers are embedded as rationals.
-/

/-- Edge record (`EdgeDatum` in `frontend/src/vis/types.ts`). -/
structure EdgeDatum where
  source : String
  target : String
  weight : ℚ
deriving Repr, DecidableEq

/-- Node record (`NodeDatum` in `frontend/src/vis/types.ts`), with the fields
`buildGraphFrame` populates. -/
structure NodeDatum where
  id : String
  label : String
  full_name : String
  degree : Nat
deriving Repr, DecidableEq

/-- One rendered frame (`GraphFrame` in `frontend/src/vis/types.ts`). -/
structure GraphFrame where
  timestamp : Nat
  nodes : List NodeDatum
  edges : List EdgeDatum
deriving Repr, DecidableEq

/-- Index pairs enumerated by the double loop of `buildGraphFrame` in
`frontend/src/overview/overviewCodec.ts`: `i` ranges over `0..n-1`; `j` starts
at `i+1` when `symmetric` and at `0` otherwise, and `i = j` is skipped. -/
def buildPairs (n : Nat) (symmetric : Bool) : List (Nat × Nat) :=
  (List.range n).flatMap fun i =>
    let jStart := if symmetric then i + 1 else 0
    ((List.range' jStart (n - jStart)).filter fun j => j != i).map fun j => (i, j)

/-- Edges pushed by the loop body of `buildGraphFrame`: the pair at loop
position `idx` receives `weights[idx]` (out-of-range reads modelled by the
default `0`; the loop stays in range for well-sized weight vectors). -/
def mkEdges (rsnLabels : List String) (weights : List ℚ) :
    List (Nat × Nat) → Nat → List EdgeDatum
  | [], _ => []
  | p :: ps, idx =>
    { source := rsnLabels.getD p.1 "", target := rsnLabels.getD p.2 "",
      weight := weights.getD idx 0 } :: mkEdges rsnLabels weights ps (idx + 1)

/-- Degree bookkeeping of `buildGraphFrame`: every emitted pair increments the
degree of its source label, and of its target label as well only when
`symmetric` is set. -/
def degreeCount (rsnLabels : List String) (symmetric : Bool) (label : String) :
    List (Nat × Nat) → Nat
  | [] => 0
  | p :: ps =>
    (if rsnLabels.getD p.1 "" == label then 1 else 0) +
      (if symmetric && (rsnLabels.getD p.2 "" == label) then 1 else 0) +
      degreeCount rsnLabels symmetric label ps

/-- `buildGraphFrame` from `frontend/src/overview/overviewCodec.ts`. -/
def buildGraphFrame (weights : List ℚ) (symmetric : Bool)
    (rsnLabels rsnFullNames : List String) : GraphFrame :=
  let n := rsnLabels.length
  let pairs := buildPairs n symmetric
  { timestamp := 0
    nodes := (List.range n).map fun i =>
      { id := rsnLabels.getD i ""
        label := rsnLabels.getD i ""
        full_name := rsnFullNames.getD i ""
        degree := degreeCount rsnLabels symmetric (rsnLabels.getD i "") pairs }
    edges := mkEdges rsnLabels weights pairs 0 }

example : (buildPairs 3 true) = [(0, 1), (0, 2), (1, 2)] := by decide

example : (buildPairs 2 false) = [(0, 1), (1, 0)] := by decide

example :
    (buildGraphFrame [1, 2] false ["A", "B"] ["a", "b"]).nodes.map
      (fun nd => nd.degree) = [1, 1] := by decide

/-- The 14 fixed RSN labels of the domain, used for concrete instantiations. -/
def rsn14 : List String :=
  ["aDMN", "pDMN", "V1", "latVIS", "occVIS", "AUD", "SM1",
   "latSM", "SAL", "lFPN", "rFPN", "DAN", "CER", "LANG"]

theorem length_mkEdges (rsnLabels : List String) (weights : List ℚ) :
    ∀ (ps : List (Nat × Nat)) (idx : Nat),
      (mkEdges rsnLabels weights ps idx).length = ps.length
  | [], _ => rfl
  | p :: ps, idx => by
    simp [mkEdges, length_mkEdges rsnLabels weights ps (idx + 1)]

/-- C2: on a 14-label frame, `buildGraphFrame` emits exactly the pairs
`(i, j)` with `i < j` when the symmetric flag is set (91 edges) and all
ordered pairs `i ≠ j` when it is unset (182 edges). -/
theorem buildGraphFrame_edge_count_C2 (weights : List ℚ) (symmetric : Bool)
    (rsnLabels rsnFullNames : List String) (h : rsnLabels.length = 14) :
    (buildGraphFrame weights symmetric rsnLabels rsnFullNames).edges.length =
      if symmetric then 91 else 182 := by
  simp only [buildGraphFrame, length_mkEdges, h]
  cases symmetric
  · decide
  · decide

/-- Witness for C2 at the concrete 14-label RSN list. -/
theorem buildGraphFrame_edge_count_C2_witness :
    (buildGraphFrame [] true rsn14 []).edges.length = (if true then 91 else 182) :=
  buildGraphFrame_edge_count_C2 [] true rsn14 [] (by decide)

theorem countP_mkEdges_source (rsnLabels : List String) (weights : List ℚ)
    (lbl : String) :
    ∀ (ps : List (Nat × Nat)) (idx : Nat),
      (mkEdges rsnLabels weights ps idx).countP (fun e => e.source == lbl) =
        ps.countP (fun p => rsnLabels.getD p.1 "" == lbl)
  | [], _ => rfl
  | p :: ps, idx => by
    simp [mkEdges, List.countP_cons,
      countP_mkEdges_source rsnLabels weights lbl ps (idx + 1)]

theorem countP_mkEdges_target (rsnLabels : List String) (weights : List ℚ)
    (lbl : String) :
    ∀ (ps : List (Nat × Nat)) (idx : Nat),
      (mkEdges rsnLabels weights ps idx).countP (fun e => e.target == lbl) =
        ps.countP (fun p => rsnLabels.getD p.2 "" == lbl)
  | [], _ => rfl
  | p :: ps, idx => by
    simp [mkEdges, List.countP_cons,
      countP_mkEdges_target rsnLabels weights lbl ps (idx + 1)]

theorem degreeCount_eq (rsnLabels : List String) (symmetric : Bool) (lbl : String) :
    ∀ ps : List (Nat × Nat),
      degreeCount rsnLabels symmetric lbl ps =
        ps.countP (fun p => rsnLabels.getD p.1 "" == lbl) +
          (if symmetric then ps.countP (fun p => rsnLabels.getD p.2 "" == lbl) else 0)
  | [] => by simp [degreeCount]
  | p :: ps => by
    have ih := degreeCount_eq rsnLabels symmetric lbl ps
    simp only [degreeCount, ih, List.countP_cons]
    cases symmetric <;>
      cases h₁ : (rsnLabels.getD p.1 "" == lbl) <;>
        cases h₂ : (rsnLabels.getD p.2 "" == lbl) <;>
          simp [h₁, h₂] <;> omega

/-- C3 counterexample: in the asymmetric frame over labels `A`, `B` with
weights 1 and 2, node `A` has degree 1, yet 2 of the 2 edges of the frame
touch `A`, so degree does not count both endpoints in the asymmetric case. -/
theorem buildGraphFrame_degree_C3_counterexample :
    ((buildGraphFrame [1, 2] false ["A", "B"] ["a", "b"]).nodes.map
        (fun nd => nd.degree) = [1, 1]) ∧
    ((buildGraphFrame [1, 2] false ["A", "B"] ["a", "b"]).edges.countP
        (fun e => e.source == "A" || e.target == "A") = 2) := by
  decide

/-- C3 amended: a node's degree equals the number of edges having it as
source, plus, only when the symmetric flag is set, the number having it as
target; asymmetric frames count source-side incidences only. -/
theorem buildGraphFrame_degree_C3_amended (weights : List ℚ) (symmetric : Bool)
    (rsnLabels rsnFullNames : List String) (nd : NodeDatum)
    (h : nd ∈ (buildGraphFrame weights symmetric rsnLabels rsnFullNames).nodes) :
    nd.degree =
      (buildGraphFrame weights symmetric rsnLabels rsnFullNames).edges.countP
          (fun e => e.source == nd.id) +
        (if symmetric then
          (buildGraphFrame weights symmetric rsnLabels rsnFullNames).edges.countP
            (fun e => e.target == nd.id)
        else 0) := by
  simp only [buildGraphFrame, List.mem_map, List.mem_range] at h
  obtain ⟨i, hi, rfl⟩ := h
  simp only [buildGraphFrame, countP_mkEdges_source, countP_mkEdges_target,
    degreeCount_eq]

/-- Witness for the amended C3 at the asymmetric two-label frame. -/
theorem buildGraphFrame_degree_C3_amended_witness :
    (⟨"A", "A", "a", 1⟩ : NodeDatum).degree =
      (buildGraphFrame [1, 2] false ["A", "B"] ["a", "b"]).edges.countP
          (fun e => e.source == (⟨"A", "A", "a", 1⟩ : NodeDatum).id) +
        (if false then
          (buildGraphFrame [1, 2] false ["A", "B"] ["a", "b"]).edges.countP
            (fun e => e.target == (⟨"A", "A", "a", 1⟩ : NodeDatum).id)
        else 0) :=
  buildGraphFrame_degree_C3_amended [1, 2] false ["A", "B"] ["a", "b"] _ (by decide)

theorem map_weight_mkEdges (rsnLabels : List String) (weights : List ℚ) :
    ∀ (ps : List (Nat × Nat)) (idx : Nat), weights.length = idx + ps.length →
      (mkEdges rsnLabels weights ps idx).map (fun e => e.weight) = weights.drop idx
  | [], idx => fun h => by
    simp only [List.length_nil] at h
    simp only [mkEdges, List.map_nil]
    exact (List.drop_eq_nil_of_le (by omega)).symm
  | p :: ps, idx => fun h => by
    simp only [List.length_cons] at h
    have hlt : idx < weights.length := by omega
    have ih := map_weight_mkEdges rsnLabels weights ps (idx + 1) (by omega)
    simp only [mkEdges, List.map_cons, ih]
    rw [List.getD_eq_getElem _ _ hlt]
    exact (List.drop_eq_getElem_cons hlt).symm

/-- C4: for a weight vector of the length implied by the symmetry flag in the
14-channel domain (91 upper-triangle cells when symmetric, 182 ordered cells
otherwise), reading the edge weights of the built frame back in edge order
recovers the original vector exactly. -/
theorem buildGraphFrame_roundtrip_C4 (weights : List ℚ) (symmetric : Bool)
    (rsnLabels rsnFullNames : List String) (h : rsnLabels.length = 14)
    (hw : weights.length = if symmetric then 91 else 182) :
    (buildGraphFrame weights symmetric rsnLabels rsnFullNames).edges.map
      (fun e => e.weight) = weights := by
  have hlen : weights.length = 0 + (buildPairs rsnLabels.length symmetric).length := by
    rw [h]
    cases symmetric
    · have h182 : (buildPairs 14 false).length = 182 := by decide
      simp only [Bool.false_eq_true, if_false] at hw
      omega
    · have h91 : (buildPairs 14 true).length = 91 := by decide
      simp only [if_true] at hw
      omega
  simp only [buildGraphFrame]
  rw [map_weight_mkEdges rsnLabels weights _ 0 hlen, List.drop_zero]

/-- Witness for C4: a symmetric 14-label frame over a 91-entry weight vector
round-trips. -/
theorem buildGraphFrame_roundtrip_C4_witness :
    (buildGraphFrame (List.replicate 91 (37 : ℚ)) true rsn14 rsn14).edges.map
      (fun e => e.weight) = List.replicate 91 (37 : ℚ) :=
  buildGraphFrame_roundtrip_C4 _ true rsn14 rsn14 (by decide)
    (by rw [List.length_replicate]; rfl)

/-- Min/max range of edge weights (`DataRange` in `frontend/src/vis/drawFrame.ts`). -/
structure DataRange where
  min : ℚ
  max : ℚ
deriving Repr, DecidableEq

/-- `getAbsoluteRange` from `frontend/src/vis/drawFrame.ts`. -/
def getAbsoluteRange (range : DataRange) : DataRange :=
  { min := 0, max := max |range.min| |range.max| }

/-- Domain endpoints of the d3 linear scale built by `createColorScale` in
`frontend/src/vis/drawFrame.ts` (the scale maps this domain onto the blue-red
color range, clamped). -/
def createColorScaleDomain (range : DataRange) : ℚ × ℚ :=
  ((getAbsoluteRange range).min, (getAbsoluteRange range).max)

/-- Domain endpoints of the d3 linear scale built by `createThicknessScale` in
`frontend/src/vis/drawFrame.ts`. -/
def createThicknessScaleDomain (range : DataRange) : ℚ × ℚ :=
  ((getAbsoluteRange range).min, (getAbsoluteRange range).max)

/-- C10: `getAbsoluteRange` returns `{min: 0, max: max(|min|, |max|)}`, so the
color and thickness scale domains always start at 0 and have a non-negative
upper bound, whatever the sign of the data range endpoints. -/
theorem getAbsoluteRange_C10 (range : DataRange) :
    getAbsoluteRange range = { min := 0, max := max |range.min| |range.max| } ∧
    (createColorScaleDomain range).1 = 0 ∧
    (createThicknessScaleDomain range).1 = 0 ∧
    0 ≤ (createColorScaleDomain range).2 ∧
    0 ≤ (createThicknessScaleDomain range).2 := by
  refine ⟨rfl, rfl, rfl, ?_, ?_⟩ <;>
    exact le_max_of_le_left (abs_nonneg _)

/-- Visibility test `isEdgeVisible` from `frontend/src/vis/drawFrame.ts`: an
edge is shown only when its absolute weight is positive and strictly above the
threshold. -/
def isEdgeVisible (e : EdgeDatum) (edgeThreshold : ℚ) : Bool :=
  decide (0 < |e.weight|) && decide (edgeThreshold < |e.weight|)

/-- Lexicographic comparison of character lists, modelling the code-unit
string comparison JS applies in `sort()` and `<`. -/
def charListLt : List Char → List Char → Bool
  | _, [] => false
  | [], _ :: _ => true
  | a :: as, b :: bs =>
    if a < b then true else if b < a then false else charListLt as bs

/-- Lexicographic string comparison (JS `<` on strings). -/
def strLt (a b : String) : Bool := charListLt a.data b.data

/-- Per-pair map key used by `filterStrongerEdgePerPair`: the two node labels
sorted lexicographically and joined with a bar, as in
`[edge.source, edge.target].sort().join()`. -/
def pairKey (e : EdgeDatum) : String :=
  if strLt e.target e.source then e.target ++ "|" ++ e.source
  else e.source ++ "|" ++ e.target

/-- Lookup in an insertion-ordered association list, as JS `Map.get`. -/
def mapGet (k : String) : List (String × EdgeDatum) → Option EdgeDatum
  | [] => none
  | (k₀, v₀) :: rest => if k₀ = k then some v₀ else mapGet k rest

/-- Update of an insertion-ordered association list, as JS `Map.set`: replace
in place when the key is present, append at the end otherwise. -/
def mapSet (k : String) (v : EdgeDatum) :
    List (String × EdgeDatum) → List (String × EdgeDatum)
  | [] => [(k, v)]
  | (k₀, v₀) :: rest =>
    if k₀ = k then (k, v) :: rest else (k₀, v₀) :: mapSet k v rest

/-- Loop body of `filterStrongerEdgePerPair` in `frontend/src/vis/drawFrame.ts`:
keep the incumbent edge of the pair unless the new edge has strictly larger
absolute weight, or ties it with its source below its target. -/
def strongerStep (pairMap : List (String × EdgeDatum)) (e : EdgeDatum) :
    List (String × EdgeDatum) :=
  match mapGet (pairKey e) pairMap with
  | Option.none => mapSet (pairKey e) e pairMap
  | Option.some existing =>
    if |existing.weight| < |e.weight| then mapSet (pairKey e) e pairMap
    else if |e.weight| = |existing.weight| ∧ strLt e.source e.target then
      mapSet (pairKey e) e pairMap
    else pairMap

/-- `filterStrongerEdgePerPair` from `frontend/src/vis/drawFrame.ts`. -/
def filterStrongerEdgePerPair (edges : List EdgeDatum) : List EdgeDatum :=
  (edges.foldl strongerStep []).map Prod.snd

/-- `filterEdgesForDisplay` from `frontend/src/vis/drawFrame.ts`. -/
def filterEdgesForDisplay (edges : List EdgeDatum) (edgeThreshold : ℚ)
    (symmetric : Bool) : List EdgeDatum :=
  (if symmetric then filterStrongerEdgePerPair edges else edges).filter
    fun e => isEdgeVisible e edgeThreshold

/-- Two edges connect the same unordered node pair. -/
def sameUnorderedPair (e₁ e₂ : EdgeDatum) : Prop :=
  (e₁.source = e₂.source ∧ e₁.target = e₂.target) ∨
    (e₁.source = e₂.target ∧ e₁.target = e₂.source)

/-- The four-edge fixture of the frontend test suite, weights scaled by 10. -/
def testEdges : List EdgeDatum :=
  [⟨"A", "B", 7⟩, ⟨"B", "A", 3⟩, ⟨"A", "C", 5⟩, ⟨"C", "A", 5⟩]

example : (filterEdgesForDisplay testEdges 2 false).length = 4 := by decide

example : (filterEdgesForDisplay testEdges 4 false).length = 3 := by decide

example :
    filterEdgesForDisplay testEdges 0 true =
      [⟨"A", "B", 7⟩, ⟨"A", "C", 5⟩] := by decide

example : filterEdgesForDisplay testEdges 6 true = [⟨"A", "B", 7⟩] := by
  decide

theorem charListLt_asymm : ∀ (as bs : List Char),
    charListLt as bs = true → charListLt bs as = false
  | _, [] => fun h => by simp [charListLt] at h
  | [], _ :: _ => fun _ => by simp [charListLt]
  | a :: as, b :: bs => fun h => by
    simp only [charListLt] at h ⊢
    by_cases hab : a < b
    · simp [hab, lt_asymm hab]
    · by_cases hba : b < a
      · simp [hab, hba] at h
      · simp only [hab, hba, if_false] at h ⊢
        simpa using charListLt_asymm as bs (by simpa using h)

theorem charListLt_eq_of_not : ∀ (as bs : List Char),
    charListLt as bs = false → charListLt bs as = false → as = bs
  | [], [] => fun _ _ => rfl
  | [], _ :: _ => fun h _ => by simp [charListLt] at h
  | _ :: _, [] => fun _ h => by simp [charListLt] at h
  | a :: as, b :: bs => fun h₁ h₂ => by
    simp only [charListLt] at h₁ h₂
    by_cases hab : a < b
    · simp [hab] at h₁
    · by_cases hba : b < a
      · simp [hba, hab] at h₂
      · have hab' : a = b := le_antisymm (not_lt.mp hba) (not_lt.mp hab)
        subst hab'
        simp only [hab, hba, if_false] at h₁ h₂
        rw [charListLt_eq_of_not as bs (by simpa using h₁) (by simpa using h₂)]

theorem strLt_asymm {a b : String} (h : strLt a b = true) : strLt b a = false :=
  charListLt_asymm a.data b.data h

theorem strLt_antisymm {a b : String} (h₁ : strLt a b = false)
    (h₂ : strLt b a = false) : a = b := by
  have h := charListLt_eq_of_not a.data b.data h₁ h₂
  cases a
  cases b
  exact congrArg String.mk h

theorem pairKey_eq_of_sameUnorderedPair {e₁ e₂ : EdgeDatum}
    (h : sameUnorderedPair e₁ e₂) : pairKey e₁ = pairKey e₂ := by
  rcases h with ⟨hs, ht⟩ | ⟨hs, ht⟩
  · simp [pairKey, hs, ht]
  · simp only [pairKey, hs, ht]
    by_cases hab : strLt e₂.source e₂.target = true
    · simp [hab, strLt_asymm hab]
    · by_cases hba : strLt e₂.target e₂.source = true
      · simp [hab, hba]
      · have heq := strLt_antisymm (Bool.not_eq_true _ ▸ hba)
          (Bool.not_eq_true _ ▸ hab)
        simp [hab, hba, heq]

theorem mapGet_eq_none_iff (k : String) : ∀ (m : List (String × EdgeDatum)),
    mapGet k m = Option.none ↔ k ∉ m.map Prod.fst
  | [] => by simp [mapGet]
  | (k₀, v₀) :: rest => by
    by_cases hk : k₀ = k
    · simp [mapGet, hk]
    · simp [mapGet, hk, mapGet_eq_none_iff k rest, Ne.symm hk]

theorem mapGet_mem {k : String} {v : EdgeDatum} :
    ∀ {m : List (String × EdgeDatum)}, mapGet k m = Option.some v → (k, v) ∈ m
  | [], h => by simp [mapGet] at h
  | (k₀, v₀) :: rest, h => by
    simp only [mapGet] at h
    split at h
    · next heq =>
      injection h with h
      subst heq
      subst h
      exact List.mem_cons_self _ _
    · exact List.mem_cons_of_mem _ (mapGet_mem h)

theorem mapSet_eq_append {k : String} (v : EdgeDatum) :
    ∀ {m : List (String × EdgeDatum)}, k ∉ m.map Prod.fst →
      mapSet k v m = m ++ [(k, v)]
  | [], _ => rfl
  | (k₀, v₀) :: rest, h => by
    simp only [List.map_cons, List.mem_cons, not_or] at h
    obtain ⟨hk, hrest⟩ := h
    simp only [mapSet, if_neg (Ne.symm hk), List.cons_append, List.cons.injEq,
      true_and]
    exact mapSet_eq_append v hrest

theorem keys_mapSet_of_mem {k : String} (v : EdgeDatum) :
    ∀ {m : List (String × EdgeDatum)}, k ∈ m.map Prod.fst →
      (mapSet k v m).map Prod.fst = m.map Prod.fst
  | [], h => by simp at h
  | (k₀, v₀) :: rest, h => by
    by_cases hk : k₀ = k
    · simp [mapSet, hk]
    · have hrest : k ∈ rest.map Prod.fst := by
        simp only [List.map_cons, List.mem_cons] at h
        rcases h with h | h
        · exact absurd h.symm hk
        · exact h
      simp [mapSet, hk, keys_mapSet_of_mem v hrest]

theorem mem_mapSet (k : String) (v : EdgeDatum) :
    ∀ (m : List (String × EdgeDatum)), (m.map Prod.fst).Nodup →
      ∀ (kv : String × EdgeDatum), kv ∈ mapSet k v m →
        kv = (k, v) ∨ (kv ∈ m ∧ kv.1 ≠ k)
  | [], _, kv, h => by
    simp only [mapSet, List.mem_singleton] at h
    exact Or.inl h
  | (k₀, v₀) :: rest, hnd, kv, h => by
    simp only [List.map_cons, List.nodup_cons] at hnd
    obtain ⟨hk₀, hndr⟩ := hnd
    by_cases hk : k₀ = k
    · subst hk
      simp only [mapSet, if_pos rfl] at h
      rcases h with _ | ⟨_, h₃⟩
      · exact Or.inl rfl
      · refine Or.inr ⟨List.mem_cons_of_mem _ h₃, fun hkv => ?_⟩
        exact hk₀ (hkv ▸ List.mem_map_of_mem Prod.fst h₃)
    · simp only [mapSet, if_neg hk] at h
      rcases h with _ | ⟨_, h₃⟩
      · exact Or.inr ⟨List.mem_cons_self _ _, hk⟩
      · rcases mem_mapSet k v rest hndr kv h₃ with h₁ | ⟨h₁, h₂⟩
        · exact Or.inl h₁
        · exact Or.inr ⟨List.mem_cons_of_mem _ h₁, h₂⟩

theorem mapGet_of_mem (k : String) (v : EdgeDatum) :
    ∀ (m : List (String × EdgeDatum)), (m.map Prod.fst).Nodup →
      (k, v) ∈ m → mapGet k m = Option.some v
  | [], _, h => by simp at h
  | (k₀, v₀) :: rest, hnd, h => by
    simp only [List.map_cons, List.nodup_cons] at hnd
    obtain ⟨hk₀, hndr⟩ := hnd
    rcases List.mem_cons.mp h with h | h
    · cases h
      simp [mapGet]
    · have hkrest : k ∈ rest.map Prod.fst := List.mem_map_of_mem Prod.fst h
      have hkk : k₀ ≠ k := fun he => hk₀ (he ▸ hkrest)
      simp [mapGet, hkk, mapGet_of_mem k v rest hndr h]

theorem nodup_keys_mapSet {k : String} (v : EdgeDatum)
    {m : List (String × EdgeDatum)} (hnd : (m.map Prod.fst).Nodup) :
    ((mapSet k v m).map Prod.fst).Nodup := by
  by_cases hk : k ∈ m.map Prod.fst
  · rw [keys_mapSet_of_mem v hk]
    exact hnd
  · rw [mapSet_eq_append v hk]
    simp only [List.map_append, List.map_cons, List.map_nil]
    simp [List.nodup_append, hnd, hk]

/-- The edge kept for a pair dominates a candidate set: weakly largest
absolute weight among candidates of its pair and, on ties, oriented
source-before-target whenever some tying candidate of the pair is. -/
def DominantIn (e : EdgeDatum) (candidates : List EdgeDatum) : Prop :=
  ∀ e₀ ∈ candidates, pairKey e₀ = pairKey e →
    |e₀.weight| ≤ |e.weight| ∧
      (|e₀.weight| = |e.weight| → strLt e₀.source e₀.target = true →
        strLt e.source e.target = true)

theorem DominantIn.append_of_ne {v e : EdgeDatum} {processed : List EdgeDatum}
    (h : DominantIn v processed) (hne : pairKey e ≠ pairKey v) :
    DominantIn v (processed ++ [e]) := by
  intro e₀ he₀ hkey
  rcases List.mem_append.mp he₀ with he₀ | he₀
  · exact h e₀ he₀ hkey
  · rw [List.mem_singleton] at he₀
    subst he₀
    exact absurd hkey hne

theorem DominantIn.append_self {v e : EdgeDatum} {processed : List EdgeDatum}
    (h : DominantIn v processed) (hw : |e.weight| ≤ |v.weight|)
    (ht : |e.weight| = |v.weight| → strLt e.source e.target = true →
      strLt v.source v.target = true) :
    DominantIn v (processed ++ [e]) := by
  intro e₀ he₀ hkey
  rcases List.mem_append.mp he₀ with he₀ | he₀
  · exact h e₀ he₀ hkey
  · rw [List.mem_singleton] at he₀
    subst he₀
    exact ⟨hw, ht⟩

theorem DominantIn.self_append {e : EdgeDatum} {processed : List EdgeDatum}
    (h : DominantIn e processed) : DominantIn e (processed ++ [e]) :=
  h.append_self le_rfl (fun _ h₂ => h₂)

/-- Invariant of the `filterStrongerEdgePerPair` fold: map keys are distinct,
every entry is keyed by the pair of the edge it holds, holds an
already-processed edge dominating all processed edges of its pair, and every
processed edge has an entry under its pair key. -/
def PairMapInv (processed : List EdgeDatum)
    (pairMap : List (String × EdgeDatum)) : Prop :=
  (pairMap.map Prod.fst).Nodup ∧
    (∀ kv ∈ pairMap,
      kv.1 = pairKey kv.2 ∧ kv.2 ∈ processed ∧ DominantIn kv.2 processed) ∧
    ∀ e₀ ∈ processed, pairKey e₀ ∈ pairMap.map Prod.fst

theorem PairMapInv_mapSet {processed : List EdgeDatum}
    {pairMap : List (String × EdgeDatum)} {e : EdgeDatum}
    (hinv : PairMapInv processed pairMap) (hdom : DominantIn e processed) :
    PairMapInv (processed ++ [e]) (mapSet (pairKey e) e pairMap) := by
  obtain ⟨hnd, hent, hcomp⟩ := hinv
  refine ⟨nodup_keys_mapSet e hnd, ?_, ?_⟩
  · intro kv hkv
    rcases mem_mapSet (pairKey e) e pairMap hnd kv hkv with rfl | ⟨hkv, hne⟩
    · exact ⟨rfl, List.mem_append_right _ (List.mem_singleton.mpr rfl),
        hdom.self_append⟩
    · obtain ⟨h₁, h₂, h₃⟩ := hent kv hkv
      refine ⟨h₁, List.mem_append_left _ h₂, h₃.append_of_ne ?_⟩
      rw [← h₁]
      exact Ne.symm hne
  · intro e₀ he₀
    rcases List.mem_append.mp he₀ with he₀ | he₀
    · have hin := hcomp e₀ he₀
      by_cases hk : pairKey e ∈ pairMap.map Prod.fst
      · rwa [keys_mapSet_of_mem e hk]
      · rw [mapSet_eq_append e hk]
        simp only [List.map_append, List.mem_append]
        exact Or.inl hin
    · rw [List.mem_singleton] at he₀
      rw [he₀]
      by_cases hk : pairKey e ∈ pairMap.map Prod.fst
      · have hin := hk
        rwa [keys_mapSet_of_mem e hk]
      · rw [mapSet_eq_append e hk]
        simp

theorem strongerStep_inv {processed : List EdgeDatum}
    {pairMap : List (String × EdgeDatum)} (e : EdgeDatum)
    (hinv : PairMapInv processed pairMap) :
    PairMapInv (processed ++ [e]) (strongerStep pairMap e) := by
  obtain ⟨hnd, hent, hcomp⟩ := hinv
  cases hget : mapGet (pairKey e) pairMap with
  | none =>
    have hk : pairKey e ∉ pairMap.map Prod.fst :=
      (mapGet_eq_none_iff (pairKey e) pairMap).mp hget
    rw [strongerStep, hget]
    refine PairMapInv_mapSet ⟨hnd, hent, hcomp⟩ ?_
    intro e₀ he₀ hkey
    exact absurd (hkey ▸ hcomp e₀ he₀) hk
  | some existing =>
    obtain ⟨hx1, hx2, hx3⟩ := hent _ (mapGet_mem hget)
    by_cases hlt : |existing.weight| < |e.weight|
    · simp only [strongerStep, hget]
      rw [if_pos hlt]
      refine PairMapInv_mapSet ⟨hnd, hent, hcomp⟩ ?_
      intro e₀ he₀ hkey
      have h₀ := hx3 e₀ he₀ (hkey.trans hx1)
      have hwlt : |e₀.weight| < |e.weight| := lt_of_le_of_lt h₀.1 hlt
      exact ⟨le_of_lt hwlt, fun habs _ => absurd habs (ne_of_lt hwlt)⟩
    · by_cases htie : |e.weight| = |existing.weight| ∧ strLt e.source e.target = true
      · simp only [strongerStep, hget]
        rw [if_neg hlt, if_pos htie]
        refine PairMapInv_mapSet ⟨hnd, hent, hcomp⟩ ?_
        intro e₀ he₀ hkey
        have h₀ := hx3 e₀ he₀ (hkey.trans hx1)
        exact ⟨le_trans h₀.1 (le_of_eq htie.1.symm), fun _ _ => htie.2⟩
      · simp only [strongerStep, hget]
        rw [if_neg hlt, if_neg htie]
        refine ⟨hnd, ?_, ?_⟩
        · intro kv hkv
          obtain ⟨h₁, h₂, h₃⟩ := hent kv hkv
          refine ⟨h₁, List.mem_append_left _ h₂, ?_⟩
          by_cases hkey : pairKey e = pairKey kv.2
          · have hkv1 : kv.1 = pairKey e := h₁.trans hkey.symm
            have hkvmem : (pairKey e, kv.2) ∈ pairMap := by
              have hpair : kv = (pairKey e, kv.2) := by
                rw [← hkv1]
              rw [← hpair]
              exact hkv
            have hkv2 : kv.2 = existing := by
              have hsome := mapGet_of_mem (pairKey e) kv.2 pairMap hnd hkvmem
              rw [hget] at hsome
              injection hsome with hsome
              exact hsome.symm
            refine h₃.append_self ?_ ?_
            · rw [hkv2]
              exact not_lt.mp hlt
            · rw [hkv2]
              intro habs hst
              exact absurd ⟨habs, hst⟩ htie
          · exact h₃.append_of_ne hkey
        · intro e₀ he₀
          rcases List.mem_append.mp he₀ with he₀ | he₀
          · exact hcomp e₀ he₀
          · rw [List.mem_singleton] at he₀
            rw [he₀]
            exact List.mem_map_of_mem Prod.fst (mapGet_mem hget)

theorem foldl_strongerStep_inv : ∀ (edges : List EdgeDatum)
    (processed : List EdgeDatum) (pairMap : List (String × EdgeDatum)),
    PairMapInv processed pairMap →
    PairMapInv (processed ++ edges) (edges.foldl strongerStep pairMap)
  | [], processed, pairMap => fun h => by simpa using h
  | e :: es, processed, pairMap => fun h => by
    have h₂ := foldl_strongerStep_inv es (processed ++ [e])
      (strongerStep pairMap e) (strongerStep_inv e h)
    simpa [List.append_assoc] using h₂

theorem PairMapInv_nil : PairMapInv [] [] :=
  ⟨List.nodup_nil, by simp, by simp⟩

/-- C9: `filterEdgesForDisplay` returns only edges whose absolute weight is
positive and strictly above the threshold; in symmetric mode it keeps at most
one edge per unordered node pair, an input edge with the largest absolute
weight among all input edges of that pair (ties resolved towards an edge
oriented source-before-target whenever some tying edge of the pair is), the
threshold being applied after this per-pair selection so that domination
ranges over all input edges, thresholded or not. -/
theorem filterEdgesForDisplay_C9 (edges : List EdgeDatum) (edgeThreshold : ℚ)
    (symmetric : Bool) :
    (∀ e ∈ filterEdgesForDisplay edges edgeThreshold symmetric,
        0 < |e.weight| ∧ edgeThreshold < |e.weight|) ∧
    (symmetric = true →
      (filterEdgesForDisplay edges edgeThreshold symmetric).Pairwise
          (fun e₁ e₂ => ¬ sameUnorderedPair e₁ e₂) ∧
      ∀ e ∈ filterEdgesForDisplay edges edgeThreshold symmetric,
        e ∈ edges ∧
          ∀ e₀ ∈ edges, sameUnorderedPair e₀ e →
            |e₀.weight| ≤ |e.weight| ∧
              (|e₀.weight| = |e.weight| → strLt e₀.source e₀.target = true →
                strLt e.source e.target = true)) := by
  constructor
  · intro e he
    rw [filterEdgesForDisplay] at he
    have hvis := List.of_mem_filter he
    simp only [isEdgeVisible, Bool.and_eq_true, decide_eq_true_iff] at hvis
    exact hvis
  · intro hsymm
    subst hsymm
    have hinv := foldl_strongerStep_inv edges [] [] PairMapInv_nil
    rw [List.nil_append] at hinv
    obtain ⟨hnd, hent, -⟩ := hinv
    have hout : filterEdgesForDisplay edges edgeThreshold true =
        ((edges.foldl strongerStep []).map Prod.snd).filter
          (fun e => isEdgeVisible e edgeThreshold) := by
      rw [filterEdgesForDisplay, if_pos rfl, filterStrongerEdgePerPair]
    constructor
    · rw [hout]
      refine List.Pairwise.sublist (List.filter_sublist _) ?_
      refine (List.pairwise_map).mpr ?_
      refine List.Pairwise.imp_of_mem ?_ ((List.pairwise_map).mp hnd)
      intro a b ha hb hne hsame
      exact hne (((hent a ha).1.trans
        (pairKey_eq_of_sameUnorderedPair hsame)).trans (hent b hb).1.symm)
    · intro e he
      rw [hout] at he
      have hmem := List.mem_of_mem_filter he
      obtain ⟨kv, hkv, rfl⟩ := List.mem_map.mp hmem
      obtain ⟨h₁, h₂, h₃⟩ := hent kv hkv
      refine ⟨h₂, fun e₀ he₀ hsame => ?_⟩
      exact h₃ e₀ he₀ (pairKey_eq_of_sameUnorderedPair hsame)

/-- Modelled from the spec: the backend windowed-correlation driver
(`backend/app/abide_processing.py`) is absent from the source snapshot, with
only its docs, tests and frontend callers present.  Spec section 4.1: window
`k` covers the signal rows `[k*step, k*step + window_size)`. -/
def windowSlice (rows : List (List ℚ)) (windowSize step k : Nat) :
    List (List ℚ) :=
  (rows.drop (k * step)).take windowSize

/-- Modelled from the spec: `WindowedCorrelation` (spec section 4.1), absent
from the source snapshot, produces `floor((T - window_size)/step) + 1`
matrices, one per window position in window order, by handing each window
slice to the method, and fails with `InsufficientDataError` when
`T < window_size`. -/
def windowedCorrelation (method : List (List ℚ) → List (List ℚ))
    (rows : List (List ℚ)) (windowSize step : Nat) :
    Except String (List (List (List ℚ))) :=
  if rows.length < windowSize then Except.error "InsufficientDataError"
  else
    Except.ok ((List.range ((rows.length - windowSize) / step + 1)).map
      fun k => method (windowSlice rows windowSize step k))

/-- C1: for a valid configuration with at least one full window,
`WindowedCorrelation` returns exactly `floor((T - window_size)/step) + 1`
matrices, each shaped the way the method shapes its output (`C × C`), and the
`k`-th matrix is computed from exactly the signal rows
`[k*step, k*step + window_size)`. -/
theorem windowedCorrelation_C1 (method : List (List ℚ) → List (List ℚ))
    (rows : List (List ℚ)) (windowSize step C : Nat)
    (hws : 5 ≤ windowSize ∧ windowSize ≤ 100) (hst : 1 ≤ step ∧ step ≤ 100)
    (hT : windowSize ≤ rows.length)
    (hm : ∀ w, (method w).length = C ∧ ∀ row ∈ method w, row.length = C) :
    ∃ out, windowedCorrelation method rows windowSize step = Except.ok out ∧
      out.length = (rows.length - windowSize) / step + 1 ∧
      (∀ m ∈ out, m.length = C ∧ ∀ row ∈ m, row.length = C) ∧
      ∀ k, k < out.length →
        out.getD k [] = method (windowSlice rows windowSize step k) ∧
        (windowSlice rows windowSize step k).length = windowSize ∧
        ∀ i, i < windowSize →
          (windowSlice rows windowSize step k)[i]? = rows[k * step + i]? := by
  have hnl : ¬ rows.length < windowSize := not_lt.mpr hT
  refine ⟨_, by rw [windowedCorrelation, if_neg hnl], ?_, ?_, ?_⟩
  · simp
  · intro m hmem
    obtain ⟨k, hk, rfl⟩ := List.mem_map.mp hmem
    exact hm _
  · intro k hk
    simp only [List.length_map, List.length_range] at hk
    have hks : k * step ≤ rows.length - windowSize := by
      have h₁ : k ≤ (rows.length - windowSize) / step := by omega
      have h₂ : k * step ≤ ((rows.length - windowSize) / step) * step :=
        Nat.mul_le_mul_right step h₁
      exact le_trans h₂ (Nat.div_mul_le_self _ _)
    refine ⟨?_, ?_, ?_⟩
    · rw [List.getD_eq_getElem _ _ (by simpa using hk)]
      simp
    · simp only [windowSlice, List.length_take, List.length_drop]
      omega
    · intro i hi
      simp only [windowSlice]
      rw [List.getElem?_take_of_lt hi, List.getElem?_drop]

/-- Witness for C1: ten rows of one channel, window 5, step 1 give six
windows. -/
theorem windowedCorrelation_C1_witness :
    ∃ out, windowedCorrelation (fun _ => [[0]]) (List.replicate 10 [(0 : ℚ)])
        5 1 = Except.ok out ∧
      out.length = ((List.replicate 10 [(0 : ℚ)]).length - 5) / 1 + 1 ∧
      (∀ m ∈ out, m.length = 1 ∧ ∀ row ∈ m, row.length = 1) ∧
      ∀ k, k < out.length →
        out.getD k [] =
          (fun (_ : List (List ℚ)) => [[(0 : ℚ)]])
            (windowSlice (List.replicate 10 [(0 : ℚ)]) 5 1 k) ∧
        (windowSlice (List.replicate 10 [(0 : ℚ)]) 5 1 k).length = 5 ∧
        ∀ i, i < 5 →
          (windowSlice (List.replicate 10 [(0 : ℚ)]) 5 1 k)[i]? =
            (List.replicate 10 [(0 : ℚ)])[k * 1 + i]? :=
  windowedCorrelation_C1 (fun _ => [[0]]) (List.replicate 10 [(0 : ℚ)]) 5 1 1
    ⟨by decide, by decide⟩ ⟨by decide, by decide⟩ (by simp)
    (fun w => ⟨rfl, by simp⟩)

/-- C8: `WindowedCorrelation` fails with `InsufficientDataError` exactly when
`T < window_size`, and produces no partial output in that case: an `ok`
result exists only when at least one full window fits. -/
theorem windowedCorrelation_C8 (method : List (List ℚ) → List (List ℚ))
    (rows : List (List ℚ)) (windowSize step : Nat) :
    (windowedCorrelation method rows windowSize step =
        Except.error "InsufficientDataError" ↔ rows.length < windowSize) ∧
    ∀ out, windowedCorrelation method rows windowSize step = Except.ok out →
      windowSize ≤ rows.length := by
  constructor
  · constructor
    · intro h
      by_contra hlt
      rw [windowedCorrelation, if_neg hlt] at h
      exact Except.noConfusion h
    · intro h
      rw [windowedCorrelation, if_pos h]
  · intro out h
    by_contra hlt
    rw [windowedCorrelation, if_pos (not_le.mp hlt)] at h
    exact Except.noConfusion h

/-- Witness for C8 at a concrete short signal. -/
theorem windowedCorrelation_C8_witness :
    (windowedCorrelation (fun _ => [[0]]) [[(0 : ℚ)], [(1 : ℚ)]] 5 1 =
        Except.error "InsufficientDataError" ↔
      ([[(0 : ℚ)], [(1 : ℚ)]] : List (List ℚ)).length < 5) ∧
    ∀ out, windowedCorrelation (fun _ => [[0]]) [[(0 : ℚ)], [(1 : ℚ)]] 5 1 =
        Except.ok out →
      5 ≤ ([[(0 : ℚ)], [(1 : ℚ)]] : List (List ℚ)).length :=
  windowedCorrelation_C8 (fun _ => [[0]]) [[(0 : ℚ)], [(1 : ℚ)]] 5 1

/-- Phase classification values of the precomputed wavelet dataset
(LEAD, LAG, IN_PHASE, ANTI_PHASE, NONE). -/
inductive Phase
  | lead
  | lag
  | inPhase
  | antiPhase
  | noCoherence
deriving Repr, DecidableEq, BEq

/-- Number of LEAD occurrences in a window of phase labels. -/
def nLead (w : List Phase) : Nat := w.countP fun p => p == Phase.lead

/-- Number of LAG occurrences in a window of phase labels. -/
def nLag (w : List Phase) : Nat := w.countP fun p => p == Phase.lag

/-- Modelled from the spec: the wavelet leading-ratio computation
(`backend/app/wavelet_processing.py`) is absent from the source snapshot; the
ratio follows spec section 4.4 and the snippet documented in the repo:
`n_lead / (n_lead + n_lag)` when the denominator is nonzero, else the neutral
`0.5`. -/
def leadingRatio (a b : Nat) : ℚ :=
  if 0 < a + b then (a : ℚ) / ((a : ℚ) + (b : ℚ)) else 1 / 2

/-- Modelled from the spec: the wavelet-leadership matrix over per-pair phase
windows, keyed in canonical orientation `i < j`; the entry `(i, j)` is the
leading ratio of the pair window and the opposite entry its complement
(`matrix[i,j] = ratio`, `matrix[j,i] = 1 - ratio`); the diagonal is unused. -/
def waveletMatrix (data : Nat → Nat → List Phase) (i j : Nat) : ℚ :=
  if i = j then 0
  else if i < j then leadingRatio (nLead (data i j)) (nLag (data i j))
  else 1 - leadingRatio (nLead (data j i)) (nLag (data j i))

theorem leadingRatio_nonneg (a b : Nat) : 0 ≤ leadingRatio a b := by
  rw [leadingRatio]
  split
  · positivity
  · norm_num

theorem leadingRatio_le_one (a b : Nat) : leadingRatio a b ≤ 1 := by
  rw [leadingRatio]
  split
  · next h =>
    have hb : (0 : ℚ) < (a : ℚ) + (b : ℚ) := by
      have : (0 : ℚ) < ((a + b : Nat) : ℚ) := by exact_mod_cast h
      push_cast at this
      linarith
    rw [div_le_one hb]
    have : (0 : ℚ) ≤ (b : ℚ) := by positivity
    linarith
  · norm_num

/-- C5: for each window and ordered channel pair `(i, j)` with `i < j`, the
wavelet-leadership entry equals `n_lead / (n_lead + n_lag)` when the
denominator is nonzero and exactly `1/2` when it is zero; the opposite entry
is its complement `1 - ratio`, and both entries lie in `[0, 1]`. -/
theorem waveletMatrix_C5 (data : Nat → Nat → List Phase) (i j : Nat)
    (hij : i < j) :
    (0 < nLead (data i j) + nLag (data i j) →
      waveletMatrix data i j =
        (nLead (data i j) : ℚ) /
          ((nLead (data i j) : ℚ) + (nLag (data i j) : ℚ))) ∧
    (nLead (data i j) + nLag (data i j) = 0 →
      waveletMatrix data i j = 1 / 2) ∧
    waveletMatrix data j i = 1 - waveletMatrix data i j ∧
    0 ≤ waveletMatrix data i j ∧ waveletMatrix data i j ≤ 1 ∧
    0 ≤ waveletMatrix data j i ∧ waveletMatrix data j i ≤ 1 := by
  have hne : i ≠ j := Nat.ne_of_lt hij
  have hji : ¬ j < i := Nat.lt_asymm hij
  have hmij : waveletMatrix data i j =
      leadingRatio (nLead (data i j)) (nLag (data i j)) := by
    rw [waveletMatrix, if_neg hne, if_pos hij]
  have hmji : waveletMatrix data j i =
      1 - leadingRatio (nLead (data i j)) (nLag (data i j)) := by
    rw [waveletMatrix, if_neg (Ne.symm hne), if_neg hji]
  refine ⟨?_, ?_, ?_, ?_, ?_, ?_, ?_⟩
  · intro hpos
    rw [hmij, leadingRatio, if_pos hpos]
  · intro hzero
    rw [hmij, leadingRatio, if_neg (by omega)]
  · rw [hmij, hmji]
  · rw [hmij]
    exact leadingRatio_nonneg _ _
  · rw [hmij]
    exact leadingRatio_le_one _ _
  · rw [hmji]
    have := leadingRatio_le_one (nLead (data i j)) (nLag (data i j))
    linarith
  · rw [hmji]
    have := leadingRatio_nonneg (nLead (data i j)) (nLag (data i j))
    linarith

/-- Witness for C5 at a concrete two-channel dataset with one LEAD and one
LAG occurrence. -/
theorem waveletMatrix_C5_witness :
    (0 < nLead [Phase.lead, Phase.lag] + nLag [Phase.lead, Phase.lag] →
      waveletMatrix (fun _ _ => [Phase.lead, Phase.lag]) 0 1 =
        (nLead [Phase.lead, Phase.lag] : ℚ) /
          ((nLead [Phase.lead, Phase.lag] : ℚ) +
            (nLag [Phase.lead, Phase.lag] : ℚ))) ∧
    (nLead [Phase.lead, Phase.lag] + nLag [Phase.lead, Phase.lag] = 0 →
      waveletMatrix (fun _ _ => [Phase.lead, Phase.lag]) 0 1 = 1 / 2) ∧
    waveletMatrix (fun _ _ => [Phase.lead, Phase.lag]) 1 0 =
      1 - waveletMatrix (fun _ _ => [Phase.lead, Phase.lag]) 0 1 ∧
    0 ≤ waveletMatrix (fun _ _ => [Phase.lead, Phase.lag]) 0 1 ∧
    waveletMatrix (fun _ _ => [Phase.lead, Phase.lag]) 0 1 ≤ 1 ∧
    0 ≤ waveletMatrix (fun _ _ => [Phase.lead, Phase.lag]) 1 0 ∧
    waveletMatrix (fun _ _ => [Phase.lead, Phase.lag]) 1 0 ≤ 1 :=
  waveletMatrix_C5 (fun _ _ => [Phase.lead, Phase.lag]) 0 1 (by decide)

/-- Indexed map with an explicit running index, mirroring the per-cell loops
of the pipeline transforms. -/
def mapWithIdx (f : Nat → α → β) : List α → Nat → List β
  | [], _ => []
  | a :: as, i => f i a :: mapWithIdx f as (i + 1)

theorem length_mapWithIdx (f : Nat → α → β) :
    ∀ (l : List α) (n : Nat), (mapWithIdx f l n).length = l.length
  | [], _ => rfl
  | a :: as, n => by
    simp [mapWithIdx, length_mapWithIdx f as (n + 1)]

theorem getElem?_mapWithIdx (f : Nat → α → β) :
    ∀ (l : List α) (n t : Nat),
      (mapWithIdx f l n)[t]? = (l[t]?).map (f (n + t))
  | [], n, t => by simp [mapWithIdx]
  | a :: as, n, 0 => by simp [mapWithIdx]
  | a :: as, n, t + 1 => by
    simp only [mapWithIdx, List.getElem?_cons_succ]
    rw [getElem?_mapWithIdx f as (n + 1) t,
      show n + 1 + t = n + (t + 1) by omega]

theorem getD_mapWithIdx (f : Nat → α → List β) (l : List α) (n t : Nat) :
    (mapWithIdx f l n).getD t [] = ((l[t]?).map (f (n + t))).getD [] := by
  rw [List.getD_eq_getElem?_getD, getElem?_mapWithIdx]

/-- Cell series of a matrix sequence: the values of cell `(i, j)` across all
frames, in sequence order. -/
def cellSeries (seq : List (List (List ℚ))) (i j : Nat) : List ℚ :=
  seq.map fun m => (m.getD i []).getD j 0

/-- Modelled from the spec: `TemporalInterpolator` (spec section 4.5) is
absent from the source snapshot.  For `N ≥ 2` every cell is interpolated at
the `(N-1)*factor + 1` evenly spaced query positions `q / factor` spanning
`[0, N-1]`; for `N ≤ 1` the sequence is returned unchanged (an explicit
no-op, not an error).  The per-cell curve fit of the chosen kernel (linear,
cubic-spline, b-spline, univariate-spline) is abstracted as `fit`, taking the
cell samples and a query position. -/
def temporalInterpolate (fit : List ℚ → ℚ → ℚ) (factor : Nat)
    (seq : List (List (List ℚ))) : List (List (List ℚ)) :=
  if seq.length ≤ 1 then seq
  else
    (List.range ((seq.length - 1) * factor + 1)).map fun (q : Nat) =>
      mapWithIdx (fun i row =>
        mapWithIdx (fun j _ =>
          fit (cellSeries seq i j) ((q : ℚ) / (factor : ℚ))) row 0)
        (seq.headD []) 0

/-- C6: with any kernel fit and factor in `[2, 10]`, interpolating a sequence
of length `N ≥ 2` yields `(N-1)*factor + 1` frames, and a single-element
sequence is returned unchanged — a no-op, not an error. -/
theorem temporalInterpolate_C6 (fit : List ℚ → ℚ → ℚ) (factor : Nat)
    (seq : List (List (List ℚ))) (hf : 2 ≤ factor ∧ factor ≤ 10) :
    (2 ≤ seq.length →
      (temporalInterpolate fit factor seq).length =
        (seq.length - 1) * factor + 1) ∧
    (seq.length = 1 → temporalInterpolate fit factor seq = seq) := by
  constructor
  · intro h
    rw [temporalInterpolate, if_neg (by omega), List.length_map,
      List.length_range]
  · intro h
    rw [temporalInterpolate, if_pos (by omega)]

/-- Witness for C6 at a one-frame sequence with the zero fit and factor 2. -/
theorem temporalInterpolate_C6_witness :
    (2 ≤ ([[[ (1 : ℚ) ]]] : List (List (List ℚ))).length →
      (temporalInterpolate (fun _ _ => 0) 2 [[[(1 : ℚ)]]]).length =
        (([[[ (1 : ℚ) ]]] : List (List (List ℚ))).length - 1) * 2 + 1) ∧
    (([[[ (1 : ℚ) ]]] : List (List (List ℚ))).length = 1 →
      temporalInterpolate (fun _ _ => 0) 2 [[[(1 : ℚ)]]] = [[[(1 : ℚ)]]]) :=
  temporalInterpolate_C6 (fun _ _ => 0) 2 [[[(1 : ℚ)]]] ⟨by decide, by decide⟩

/-- The three smoothing kernels of the spec with their sub-parameters. -/
inductive SmoothingKernel
  | movingAverage (window : Nat)
  | exponential (alpha : ℚ)
  | gaussian (sigma : ℚ)
deriving Repr, DecidableEq

/-- Validity of the smoothing sub-parameter (spec section 6): integer window
2 to 10, alpha in `[0, 1]`, sigma in `[0.1, 5]`. -/
def SmoothingKernel.valid : SmoothingKernel → Prop
  | SmoothingKernel.movingAverage w => 2 ≤ w ∧ w ≤ 10
  | SmoothingKernel.exponential a => 0 ≤ a ∧ a ≤ 1
  | SmoothingKernel.gaussian s => 1 / 10 ≤ s ∧ s ≤ 5

/-- Modelled from the spec: the backend `TemporalSmoother` is absent from the
source snapshot.  Centered moving average with the window shrinking at the
sequence boundaries (spec section 4.6): position `t` averages the samples at
indices `[t - (w-1)/2, t + w/2]` clamped to the sequence. -/
def movingAverage1D (w : Nat) (xs : List ℚ) : List ℚ :=
  (List.range xs.length).map fun t =>
    let lo := t - (w - 1) / 2
    let hi := min (t + w / 2) (xs.length - 1)
    let idxs := List.range' lo (hi + 1 - lo)
    (idxs.map fun i => xs.getD i 0).sum / (idxs.length : ℚ)

/-- Modelled from the spec: the causal recursive exponential filter
`y[t] = alpha*x[t] + (1-alpha)*y[t-1]` with `y[0] = x[0]`
(spec section 4.6), unrolled over the tail. -/
def expSmoothAux (alpha y : ℚ) : List ℚ → List ℚ
  | [] => [y]
  | x :: xs => y :: expSmoothAux alpha (alpha * x + (1 - alpha) * y) xs

/-- Exponential smoothing of a cell series (spec section 4.6). -/
def expSmooth1D (alpha : ℚ) : List ℚ → List ℚ
  | [] => []
  | x :: xs => expSmoothAux alpha x xs

/-- Modelled from the spec: gaussian smoothing of effective radius about
`3*sigma`, truncated at the sequence boundaries and renormalized
(spec section 4.6); the gaussian weight profile, not rational-valued, is
abstracted as `g` of the index distance. -/
def gaussSmooth1D (g : Nat → ℚ) (sigma : ℚ) (xs : List ℚ) : List ℚ :=
  (List.range xs.length).map fun t =>
    let r := (3 * sigma).ceil.toNat
    let lo := t - r
    let hi := min (t + r) (xs.length - 1)
    let idxs := List.range' lo (hi + 1 - lo)
    (idxs.map fun i => g (Nat.dist i t) * xs.getD i 0).sum /
      (idxs.map fun i => g (Nat.dist i t)).sum

/-- Kernel dispatch of the smoother (spec section 4.6). -/
def smooth1D (g : Nat → ℚ) : SmoothingKernel → List ℚ → List ℚ
  | SmoothingKernel.movingAverage w => movingAverage1D w
  | SmoothingKernel.exponential a => expSmooth1D a
  | SmoothingKernel.gaussian s => gaussSmooth1D g s

/-- A correlation-matrix sequence together with its symmetry flag. -/
structure MatrixSequence where
  mats : List (List (List ℚ))
  symmetric : Bool
deriving Repr, DecidableEq

/-- Modelled from the spec: `TemporalSmoother` (spec section 4.6), absent
from the source snapshot: every cell series is smoothed independently across
the sequence and written back cell by cell, so the sequence keeps its length,
per-matrix shape and symmetry flag. -/
def temporalSmooth (g : Nat → ℚ) (k : SmoothingKernel) (s : MatrixSequence) :
    MatrixSequence :=
  { mats := mapWithIdx (fun t m =>
      mapWithIdx (fun i row =>
        mapWithIdx (fun j _ =>
          (smooth1D g k (cellSeries s.mats i j)).getD t 0) row 0) m 0) s.mats 0
    symmetric := s.symmetric }

theorem expSmoothAux_length (alpha : ℚ) :
    ∀ (y : ℚ) (xs : List ℚ), (expSmoothAux alpha y xs).length = xs.length + 1
  | _, [] => rfl
  | y, x :: xs => by
    simp [expSmoothAux, expSmoothAux_length alpha _ xs]

/-- Every smoothing kernel maps a cell series to one of the same length. -/
theorem smooth1D_length (g : Nat → ℚ) (k : SmoothingKernel) (xs : List ℚ) :
    (smooth1D g k xs).length = xs.length := by
  cases k with
  | movingAverage w => simp [smooth1D, movingAverage1D]
  | exponential a =>
    cases xs with
    | nil => rfl
    | cons x xs => simp [smooth1D, expSmooth1D, expSmoothAux_length]
  | gaussian s => simp [smooth1D, gaussSmooth1D]

/-- C7: for any smoothing kernel with valid sub-parameters, the smoothed
sequence has the same length, the same per-matrix shape and the same
symmetry flag as the input sequence. -/
theorem temporalSmooth_C7 (g : Nat → ℚ) (k : SmoothingKernel)
    (s : MatrixSequence) (hk : k.valid) :
    (temporalSmooth g k s).mats.length = s.mats.length ∧
    (∀ t, ((temporalSmooth g k s).mats.getD t []).length =
        (s.mats.getD t []).length) ∧
    (∀ t i, (((temporalSmooth g k s).mats.getD t []).getD i []).length =
        ((s.mats.getD t []).getD i []).length) ∧
    (temporalSmooth g k s).symmetric = s.symmetric := by
  refine ⟨length_mapWithIdx _ _ _, ?_, ?_, rfl⟩
  · intro t
    simp only [temporalSmooth]
    rw [getD_mapWithIdx]
    cases h : s.mats[t]? with
    | none =>
      rw [List.getD_eq_getElem?_getD s.mats, h]
      simp
    | some m =>
      rw [List.getD_eq_getElem?_getD s.mats, h]
      simp [length_mapWithIdx]
  · intro t i
    simp only [temporalSmooth]
    rw [getD_mapWithIdx]
    cases h : s.mats[t]? with
    | none =>
      rw [List.getD_eq_getElem?_getD s.mats, h]
      simp
    | some m =>
      rw [List.getD_eq_getElem?_getD s.mats, h]
      simp only [Option.map_some', Option.getD_some]
      rw [getD_mapWithIdx]
      cases h₂ : m[i]? with
      | none =>
        rw [List.getD_eq_getElem?_getD m, h₂]
        simp
      | some row =>
        rw [List.getD_eq_getElem?_getD m, h₂]
        simp [length_mapWithIdx]

/-- Witness for C7: centered moving average with window 3 on a two-frame
sequence of 2-by-2 matrices. -/
theorem temporalSmooth_C7_witness :
    (temporalSmooth (fun _ => 1) (SmoothingKernel.movingAverage 3)
        ⟨[[[1, 2], [3, 4]], [[5, 6], [7, 8]]], true⟩).mats.length =
      (⟨[[[1, 2], [3, 4]], [[5, 6], [7, 8]]], true⟩ : MatrixSequence).mats.length ∧
    (∀ t, ((temporalSmooth (fun _ => 1) (SmoothingKernel.movingAverage 3)
        ⟨[[[1, 2], [3, 4]], [[5, 6], [7, 8]]], true⟩).mats.getD t []).length =
      ((⟨[[[1, 2], [3, 4]], [[5, 6], [7, 8]]], true⟩ :
          MatrixSequence).mats.getD t []).length) ∧
    (∀ t i, (((temporalSmooth (fun _ => 1) (SmoothingKernel.movingAverage 3)
        ⟨[[[1, 2], [3, 4]], [[5, 6], [7, 8]]], true⟩).mats.getD t []).getD i
          []).length =
      (((⟨[[[1, 2], [3, 4]], [[5, 6], [7, 8]]], true⟩ :
          MatrixSequence).mats.getD t []).getD i []).length) ∧
    (temporalSmooth (fun _ => 1) (SmoothingKernel.movingAverage 3)
        ⟨[[[1, 2], [3, 4]], [[5, 6], [7, 8]]], true⟩).symmetric =
      (⟨[[[1, 2], [3, 4]], [[5, 6], [7, 8]]], true⟩ : MatrixSequence).symmetric :=
  temporalSmooth_C7 (fun _ => 1) (SmoothingKernel.movingAverage 3)
    ⟨[[[1, 2], [3, 4]], [[5, 6], [7, 8]]], true⟩ ⟨by decide, by decide⟩
